import Mathlib

/-!
Shallow embedding of casbin-rs `DefaultCache` (src/src/cache/default_cache.rs).

`DefaultCache<K, V>` wraps `ttl_cache::TtlCache<K, V>` together with a default
TTL (`Duration::from_secs(120)`).  The wrapper code in the repository is:

  - `new(cap)` builds `DefaultCache { ttl: 120s, cache: TtlCache::new(cap) }`
    with no validation of `cap`;
  - `set_capacity(cap)` forwards to `TtlCache::set_capacity`;
  - `set_ttl(ttl)` stores the new default TTL in the wrapper only;
  - `get(&self, k)` forwards to `TtlCache::get` (shared reference, so it can
    mutate nothing);
  - `has(&self, k)` forwards to `TtlCache::contains_key` (shared reference);
  - `set(&mut self, k, v)` first removes `k` when `has(k)` holds, then calls
    `TtlCache::insert(k, v, self.ttl)`;
  - `clear` forwards to `TtlCache::clear`.

The `TtlCache` container itself is an external dependency whose source is not
part of the repository, so its behaviour is modelled from the specification:
a mapping from keys to (value, expires_at) entries kept in insertion order,
an entry being live while the current time has not passed its `expires_at`,
and capacity overflow evicting the oldest-inserted entries first.  Time is
modelled as a `Nat` number of seconds passed explicitly to each operation
(`now`); `Duration` values become `Nat` seconds.
-/

/-- Modelled from the spec: an entry is "a tuple of (value, expires_at), where
expires_at is an absolute timestamp computed at insertion time as now +
effective TTL"; the key is carried alongside so a cache is a list of entries
in insertion order. -/
structure CacheEntry (K V : Type) where
  key : K
  value : V
  expiresAt : Nat
deriving Repr, DecidableEq

/-- The wrapper state from `default_cache.rs`: the default TTL field `ttl`
plus the wrapped `TtlCache`.  Modelled from the spec: the `TtlCache` is "a
mapping from key to Entry (keys unique; insertion order is relevant only for
eviction tie-breaking), a capacity bound, and a default TTL"; here the map is
a list of entries ordered oldest-inserted first. -/
structure DefaultCache (K V : Type) where
  ttl : Nat
  cap : Nat
  entries : List (CacheEntry K V)
deriving Repr, DecidableEq

namespace CacheEntry

/-- Modelled from the spec: an entry "is implicitly destroyed (logically
absent) once the current time passes its expires_at", so it is live while
`now ≤ expiresAt`. -/
def isLive (now : Nat) (e : CacheEntry K V) : Bool :=
  decide (now ≤ e.expiresAt)

end CacheEntry

/-- Number of live (non-expired) entries at time `now`. -/
def liveCount (now : Nat) (es : List (CacheEntry K V)) : Nat :=
  (es.filter (fun e => e.isLive now)).length

/-- Modelled from the spec: on capacity overflow "the entry that has gone
longest without being read or written is evicted first", and since the
repository accesses the cache through `&self` readers that cannot touch any
recency state, that order is the insertion order, oldest first; eviction
removes oldest entries until at most `cap` live entries remain. -/
def evict (now cap : Nat) : List (CacheEntry K V) → List (CacheEntry K V)
  | [] => []
  | e :: rest => if liveCount now (e :: rest) ≤ cap then e :: rest else evict now cap rest

namespace DefaultCache

variable {K V : Type} [DecidableEq K]

/-- `DefaultCache::new(cap)`: builds the wrapper with a default TTL of 120
seconds and an empty `TtlCache` of capacity `cap`; the source performs no
validation of `cap`. -/
def new (cap : Nat) : DefaultCache K V :=
  { ttl := 120, cap := cap, entries := [] }

/-- `DefaultCache::get`: forwards to `TtlCache::get`.  Modelled from the spec:
"returns the current value if a live (non-expired) entry exists for key;
returns absent otherwise, including when an entry exists but has expired". -/
def get (c : DefaultCache K V) (now : Nat) (k : K) : Option V :=
  (c.entries.find? (fun e => decide (e.key = k))).bind
    (fun e => if e.isLive now then some e.value else none)

/-- `DefaultCache::has`: forwards to `TtlCache::contains_key`.  Modelled from
the spec: "equivalent to get(key).is_some() but without returning the value;
same liveness semantics" — a membership test for a live entry with this key. -/
def has (c : DefaultCache K V) (now : Nat) (k : K) : Bool :=
  c.entries.any (fun e => decide (e.key = k) && e.isLive now)

/-- `DefaultCache::set`: removes any prior entry for `k`, then inserts
`(k, v)` with `expires_at = now + self.ttl` as the newest entry; modelled from
the spec: "If inserting this entry would cause the live entry count to exceed
capacity, one existing entry is evicted first" (oldest first). -/
def set (c : DefaultCache K V) (now : Nat) (k : K) (v : V) : DefaultCache K V :=
  { c with
    entries := evict now c.cap
      ((c.entries.filter (fun e => decide (e.key ≠ k))) ++ [⟨k, v, now + c.ttl⟩]) }

/-- `DefaultCache::set_ttl`: stores a new default TTL in the wrapper; the
wrapped `TtlCache` is untouched. -/
def set_ttl (c : DefaultCache K V) (t : Nat) : DefaultCache K V :=
  { c with ttl := t }

/-- `DefaultCache::set_capacity`: forwards to `TtlCache::set_capacity`.
Modelled from the spec: "If new_cap is smaller than the current live count,
excess entries are evicted according to the same policy as normal overflow
(oldest/least-recently-used first), immediately, not lazily." -/
def set_capacity (c : DefaultCache K V) (now cap : Nat) : DefaultCache K V :=
  { c with cap := cap, entries := evict now cap c.entries }

/-- `DefaultCache::clear`: forwards to `TtlCache::clear`, removing every
entry. -/
def clear (c : DefaultCache K V) : DefaultCache K V :=
  { c with entries := [] }

end DefaultCache

/-- The operations of the `Cache` trait as data, for stating frame theorems
about operation sequences.  Each constructor mirrors one method of
`default_cache.rs`. -/
inductive CacheOp (K V : Type) where
  | set (k : K) (v : V)
  | get (k : K)
  | has (k : K)
  | clear
  | set_capacity (n : Nat)
  | set_ttl (t : Nat)

/-- State transition of one operation at time `now`: `get` and `has` take the
cache by shared reference in the source, so their state transition is the
identity. -/
def stepOp [DecidableEq K] (c : DefaultCache K V) (now : Nat) :
    CacheOp K V → DefaultCache K V
  | CacheOp.set k v => c.set now k v
  | CacheOp.get _ => c
  | CacheOp.has _ => c
  | CacheOp.clear => c.clear
  | CacheOp.set_capacity n => c.set_capacity now n
  | CacheOp.set_ttl t => c.set_ttl t

/-- Run a timestamped sequence of operations. -/
def runOps [DecidableEq K] (c : DefaultCache K V) :
    List (Nat × CacheOp K V) → DefaultCache K V
  | [] => c
  | (now, op) :: rest => runOps (stepOp c now op) rest

/-- Keys of a cache's entry list are pairwise distinct: the representation
invariant inherited from the key-uniqueness of the wrapped hash map. -/
def uniqueKeys (es : List (CacheEntry K V)) : Prop :=
  es.Pairwise (fun a b => a.key ≠ b.key)

section BasicLemmas

variable {K V : Type}

theorem liveCount_nil (now : Nat) : liveCount now ([] : List (CacheEntry K V)) = 0 := rfl

theorem liveCount_append (now : Nat) (xs ys : List (CacheEntry K V)) :
    liveCount now (xs ++ ys) = liveCount now xs + liveCount now ys := by
  simp [liveCount, List.filter_append]

theorem liveCount_cons (now : Nat) (e : CacheEntry K V) (es : List (CacheEntry K V)) :
    liveCount now (e :: es) =
      (if e.isLive now then 1 else 0) + liveCount now es := by
  by_cases h : e.isLive now
  · simp only [liveCount, List.filter_cons, h, if_true, List.length_cons]
    omega
  · simp [liveCount, List.filter_cons, h]

/-- The eviction scan never exceeds the capacity bound on live entries. -/
theorem liveCount_evict_le (now cap : Nat) (es : List (CacheEntry K V)) :
    liveCount now (evict now cap es) ≤ cap := by
  induction es with
  | nil => simp [evict, liveCount]
  | cons e rest ih =>
    by_cases h : liveCount now (e :: rest) ≤ cap
    · simp [evict, h]
    · simp only [evict, if_neg h]
      exact ih

/-- Eviction removes a prefix of the insertion-ordered list: survivors are a
`drop` of the original list, i.e. the oldest-inserted entries go first. -/
theorem evict_eq_drop (now cap : Nat) (es : List (CacheEntry K V)) :
    ∃ i, evict now cap es = es.drop i := by
  induction es with
  | nil => exact ⟨0, rfl⟩
  | cons e rest ih =>
    by_cases h : liveCount now (e :: rest) ≤ cap
    · exact ⟨0, by simp [evict, h]⟩
    · obtain ⟨i, hi⟩ := ih
      exact ⟨i + 1, by simpa [evict, h] using hi⟩

/-- A list already within the live bound is left untouched by eviction. -/
theorem evict_of_le (now cap : Nat) (es : List (CacheEntry K V))
    (h : liveCount now es ≤ cap) : evict now cap es = es := by
  cases es with
  | nil => rfl
  | cons e rest => simp [evict, h]

/-- Liveness is antitone in time: an entry live later was live earlier. -/
theorem isLive_mono {now now' : Nat} (h : now ≤ now') (e : CacheEntry K V)
    (hl : e.isLive now' = true) : e.isLive now = true := by
  simp only [CacheEntry.isLive, decide_eq_true_eq] at hl ⊢
  omega

/-- The live count only shrinks as time advances. -/
theorem liveCount_mono {now now' : Nat} (h : now ≤ now') (es : List (CacheEntry K V)) :
    liveCount now' es ≤ liveCount now es := by
  induction es with
  | nil => simp [liveCount]
  | cons e rest ih =>
    rw [liveCount_cons, liveCount_cons]
    by_cases h1 : e.isLive now' = true
    · rw [if_pos h1, if_pos (isLive_mono h e h1)]
      omega
    · rw [if_neg h1]
      omega

/-- When the capacity is at least one, the eviction scan keeps a freshly
appended live entry: only older entries are dropped. -/
theorem evict_append_live (now cap : Nat) (hcap : 1 ≤ cap)
    (F : List (CacheEntry K V)) (e : CacheEntry K V) (he : e.isLive now = true) :
    ∃ i, evict now cap (F ++ [e]) = F.drop i ++ [e] := by
  induction F with
  | nil =>
    refine ⟨0, ?_⟩
    have hle : liveCount now ([e] : List (CacheEntry K V)) ≤ cap := by
      rw [liveCount_cons]
      simp only [he, if_true, liveCount_nil]
      omega
    simpa using evict_of_le now cap [e] hle
  | cons f F' ih =>
    by_cases h : liveCount now (f :: (F' ++ [e])) ≤ cap
    · exact ⟨0, by simp [evict, h]⟩
    · obtain ⟨i, hi⟩ := ih
      refine ⟨i + 1, ?_⟩
      simpa [evict, h] using hi

theorem find?_append_of_forall_not (p : CacheEntry K V → Bool)
    (xs ys : List (CacheEntry K V)) (h : ∀ x ∈ xs, p x = false) :
    List.find? p (xs ++ ys) = List.find? p ys := by
  induction xs with
  | nil => rfl
  | cons x xs ih =>
    have hx : ¬ p x = true := by simp [h x (by simp)]
    rw [List.cons_append, List.find?_cons_of_neg _ hx]
    exact ih (fun y hy => h y (by simp [hy]))

/-- The entry freshly stored by `set` is always live at the moment of the
call (its expiration is `now + ttl ≥ now`). -/
theorem isLive_fresh (now ttl : Nat) (k : K) (v : V) :
    (⟨k, v, now + ttl⟩ : CacheEntry K V).isLive now = true := by
  simp [CacheEntry.isLive]

end BasicLemmas

section SetLemmas

variable {K V : Type} [DecidableEq K]

/-- After `set(k, v)` on a cache of positive capacity, the first (and only)
entry for `k` is the freshly inserted one, expiring at `now + ttl`. -/
theorem find?_set_self (c : DefaultCache K V) (now : Nat) (k : K) (v : V)
    (hcap : 1 ≤ c.cap) :
    (c.set now k v).entries.find? (fun e => decide (e.key = k)) =
      some ⟨k, v, now + c.ttl⟩ := by
  unfold DefaultCache.set
  obtain ⟨i, hi⟩ := evict_append_live now c.cap hcap
    (c.entries.filter (fun e => decide (e.key ≠ k))) _ (isLive_fresh now c.ttl k v)
  simp only [hi]
  rw [find?_append_of_forall_not]
  · simp [List.find?]
  · intro x hx
    have hxF : x ∈ c.entries.filter (fun e => decide (e.key ≠ k)) :=
      List.drop_subset _ _ hx
    have : x.key ≠ k := by
      have := (List.mem_filter.mp hxF).2
      simpa using this
    simpa using this

/-- Reading a key immediately after writing it yields the written value,
provided the capacity allows any entry at all. -/
theorem get_set_self (c : DefaultCache K V) (now : Nat) (k : K) (v : V)
    (hcap : 1 ≤ c.cap) : (c.set now k v).get now k = some v := by
  unfold DefaultCache.get
  rw [find?_set_self c now k v hcap]
  simp [isLive_fresh]

/-- Core of the overwrite property: running the insertion pipeline for key
`k` twice (with entries `ek1` then `ek2`, equally live) leaves exactly the
state produced by inserting `ek2` alone. -/
theorem evict_filter_append (now cap : Nat) (k : K)
    (ek1 ek2 : CacheEntry K V) (hk1 : ek1.key = k)
    (hl : ek1.isLive now = ek2.isLive now)
    (F : List (CacheEntry K V)) (hF : ∀ x ∈ F, x.key ≠ k) :
    evict now cap
      ((evict now cap (F ++ [ek1])).filter (fun e => decide (e.key ≠ k)) ++ [ek2]) =
      evict now cap (F ++ [ek2]) := by
  induction F with
  | nil =>
    have hfil : (evict now cap ([] ++ [ek1])).filter (fun e => decide (e.key ≠ k)) = [] := by
      obtain ⟨i, hi⟩ := evict_eq_drop now cap ([] ++ [ek1])
      rw [hi]
      cases i with
      | zero => simp [hk1]
      | succ n => simp
    rw [hfil]
  | cons f F' ih =>
    have hf : f.key ≠ k := hF f (by simp)
    have hF' : ∀ x ∈ F', x.key ≠ k := fun x hx => hF x (by simp [hx])
    have hsingle : ∀ e : CacheEntry K V,
        liveCount now [e] = if e.isLive now then 1 else 0 := by
      intro e
      rw [liveCount_cons, liveCount_nil]
      omega
    have hlc : liveCount now (f :: (F' ++ [ek1])) = liveCount now (f :: (F' ++ [ek2])) := by
      rw [liveCount_cons, liveCount_cons, liveCount_append, liveCount_append,
        hsingle, hsingle, hl]
    by_cases h : liveCount now (f :: (F' ++ [ek1])) ≤ cap
    · have h2 : liveCount now (f :: (F' ++ [ek2])) ≤ cap := hlc ▸ h
      have he1 : evict now cap ((f :: F') ++ [ek1]) = f :: (F' ++ [ek1]) := by
        rw [List.cons_append]
        exact evict_of_le now cap _ h
      have hfil : (f :: (F' ++ [ek1])).filter (fun e => decide (e.key ≠ k)) = f :: F' := by
        simp only [List.filter_cons, List.filter_append]
        rw [if_pos (by simpa using hf)]
        have hFe : F'.filter (fun e => decide (e.key ≠ k)) = F' := by
          rw [List.filter_eq_self]
          intro a ha
          simpa using hF' a ha
        rw [hFe]
        simp [hk1]
      rw [he1, hfil, List.cons_append, evict_of_le now cap _ h2]
    · have h2 : ¬ liveCount now (f :: (F' ++ [ek2])) ≤ cap := hlc ▸ h
      have he1 : evict now cap ((f :: F') ++ [ek1]) = evict now cap (F' ++ [ek1]) := by
        rw [List.cons_append]
        simp only [evict, if_neg h]
      rw [he1, ih hF', List.cons_append]
      simp only [evict, if_neg h2]

/-- Overwriting a key twice in a row is the same as writing it once: the
first write leaves no trace in the final cache state. -/
theorem set_set_collapse (c : DefaultCache K V) (now : Nat) (k : K) (v1 v2 : V) :
    (c.set now k v1).set now k v2 = c.set now k v2 := by
  simp only [DefaultCache.set]
  congr 1
  exact evict_filter_append now c.cap k ⟨k, v1, now + c.ttl⟩ ⟨k, v2, now + c.ttl⟩ rfl rfl
    (c.entries.filter (fun e => decide (e.key ≠ k)))
    (fun x hx => by simpa using (List.mem_filter.mp hx).2)

/-- With pairwise-distinct keys, the entry `find?` locates for key `k` is the
only entry carrying that key. -/
theorem find?_key_unique (k : K) (es : List (CacheEntry K V)) (hu : uniqueKeys es)
    (e : CacheEntry K V) (he : es.find? (fun x => decide (x.key = k)) = some e)
    (x : CacheEntry K V) (hx : x ∈ es) (hxk : x.key = k) : x = e := by
  induction es with
  | nil => simp at he
  | cons a es ih =>
    simp only [uniqueKeys, List.pairwise_cons] at hu
    by_cases hak : a.key = k
    · have hea : e = a := by
        rw [List.find?_cons_of_pos _ (by simpa using hak)] at he
        exact (Option.some.inj he).symm
      rcases List.mem_cons.mp hx with rfl | hxes
      · rw [hea]
      · exact absurd (hak.trans hxk.symm) (hu.1 x hxes)
    · rw [List.find?_cons_of_neg _ (by simpa using hak)] at he
      rcases List.mem_cons.mp hx with rfl | hxes
      · exact absurd hxk hak
      · exact ih hu.2 he hxes

/-- On a cache whose entry list has pairwise-distinct keys (the
representation invariant of the wrapped hash map), `has` answers exactly
whether `get` finds a live value. -/
theorem has_eq_get_isSome (c : DefaultCache K V) (now : Nat) (k : K)
    (hu : uniqueKeys c.entries) :
    (c.has now k = true) ↔ ((c.get now k).isSome = true) := by
  unfold DefaultCache.has DefaultCache.get
  cases hf : c.entries.find? (fun e => decide (e.key = k)) with
  | none =>
    have hall := List.find?_eq_none.mp hf
    constructor
    · intro h
      obtain ⟨e, he, hpe⟩ := List.any_eq_true.mp h
      rw [Bool.and_eq_true] at hpe
      exact absurd hpe.1 (hall e he)
    · intro h
      simp at h
  | some e =>
    have hmem := List.mem_of_find?_eq_some hf
    have hek : e.key = k := by simpa using List.find?_some hf
    constructor
    · intro h
      obtain ⟨x, hx, hpx⟩ := List.any_eq_true.mp h
      rw [Bool.and_eq_true] at hpx
      have hxk : x.key = k := by simpa using hpx.1
      have hxe : x = e := find?_key_unique k c.entries hu e hf x hx hxk
      rw [hxe] at hpx
      simp [hpx.2]
    · intro h
      by_cases hlive : e.isLive now = true
      · exact List.any_eq_true.mpr
          ⟨e, hmem, by rw [Bool.and_eq_true]; exact ⟨by simpa using hek, hlive⟩⟩
      · rw [Option.some_bind, if_neg hlive] at h
        simp at h

end SetLemmas

/-!
Claim theorems.
-/

/-- C1 (counterexample): with capacity 2, after inserting keys 10 then 20 and
then reading key 10 (the read returns its value, so key 20 is the entry that
has gone longest without being read or written), a further insertion evicts
key 10, not key 20: the recently read key does not survive in place of the
unread, newer-inserted one.  Reads go through a shared reference and cannot
influence eviction, so eviction follows insertion order alone. -/
theorem C1_counterexample :
    (((DefaultCache.new 2 : DefaultCache Nat Nat).set 0 10 1).set 0 20 2).get 0 10 =
      some 1 ∧
    (((((DefaultCache.new 2 : DefaultCache Nat Nat).set 0 10 1).set 0 20 2).set 0 30 3).has
      0 10 = false) ∧
    (((((DefaultCache.new 2 : DefaultCache Nat Nat).set 0 10 1).set 0 20 2).set 0 30 3).has
      0 20 = true) ∧
    (((((DefaultCache.new 2 : DefaultCache Nat Nat).set 0 10 1).set 0 20 2).set 0 30 3).has
      0 30 = true) := by
  decide

/-- C1 (amended): when inserting a new key would exceed capacity, the entries
evicted are the oldest-inserted ones — the survivors of `set` are a tail
(`drop i`) of the insertion-ordered list with the fresh entry appended — and
the live count is brought within capacity.  Reads never affect this order,
since `get`/`has` take the cache by shared reference. -/
theorem C1_amended_insertion_order {K V : Type} [DecidableEq K]
    (c : DefaultCache K V) (now : Nat) (k : K) (v : V) :
    (∃ i, (c.set now k v).entries =
      ((c.entries.filter (fun e => decide (e.key ≠ k))) ++
        [(⟨k, v, now + c.ttl⟩ : CacheEntry K V)]).drop i) ∧
    liveCount now ((c.set now k v).entries) ≤ c.cap := by
  constructor
  · exact evict_eq_drop now c.cap _
  · exact liveCount_evict_le now c.cap _

/-- C2 (counterexample): `DefaultCache::new(0)` performs no validation and is
not rejected: it succeeds and produces the cache `{ ttl := 120, cap := 0,
entries := [] }`, on which every operation runs without failure (a `set`
simply retains nothing). -/
theorem C2_counterexample :
    (DefaultCache.new 0 : DefaultCache Nat Nat) =
      { ttl := 120, cap := 0, entries := [] } ∧
    ((DefaultCache.new 0 : DefaultCache Nat Nat).set 0 1 1).entries = [] ∧
    ((DefaultCache.new 0 : DefaultCache Nat Nat).set 0 1 1).get 0 1 = none := by
  decide

/-- C2 (amended): construction with zero capacity is not rejected:
`DefaultCache::new(0)` succeeds, yielding a default-TTL cache of capacity 0
in which no entry is ever retained (every inserted entry is immediately
evicted), and zero capacity never surfaces as a runtime failure of the
individual operations, which remain total. -/
theorem C2_amended_no_validation {K V : Type} [DecidableEq K]
    (now : Nat) (k : K) (v : V) :
    (DefaultCache.new 0 : DefaultCache K V) = { ttl := 120, cap := 0, entries := [] } ∧
    ((DefaultCache.new 0 : DefaultCache K V).set now k v).entries = [] ∧
    ((DefaultCache.new 0 : DefaultCache K V).set now k v).get now k = none := by
  refine ⟨rfl, ?_, ?_⟩ <;>
    simp [DefaultCache.new, DefaultCache.set, DefaultCache.get, evict, liveCount,
      CacheEntry.isLive]

/-- C3: for every key `k` and value `v`, after `set(k, v)` with no
intervening time advance (`get` runs at the same `now`) and no capacity
overflow evicting `k` (positive capacity guarantees the freshly inserted
entry survives the eviction scan), `get(k)` returns `Some v`. -/
theorem C3_set_then_get {K V : Type} [DecidableEq K] (c : DefaultCache K V)
    (now : Nat) (k : K) (v : V) (hcap : 1 ≤ c.cap) :
    (c.set now k v).get now k = some v :=
  get_set_self c now k v hcap

theorem C3_set_then_get_witness :
    1 ≤ (DefaultCache.new 1 : DefaultCache Nat Nat).cap ∧
    ((DefaultCache.new 1 : DefaultCache Nat Nat).set 0 7 42).get 0 7 = some 42 :=
  ⟨by decide, C3_set_then_get (DefaultCache.new 1) 0 7 42 (by decide)⟩

/-- C4: overwriting a key leaves no trace of the old value: the state after
`set(k, v1); set(k, v2)` (same `now`) is exactly the state after
`set(k, v2)` alone — so nothing of `v1` is observable through `get` or
`has` in any state the caller can reach — and `get(k)` then returns
`Some v2` (capacity permitting any entry at all). -/
theorem C4_overwrite {K V : Type} [DecidableEq K] (c : DefaultCache K V)
    (now : Nat) (k : K) (v1 v2 : V) (hcap : 1 ≤ c.cap) :
    (c.set now k v1).set now k v2 = c.set now k v2 ∧
    ((c.set now k v1).set now k v2).get now k = some v2 := by
  refine ⟨set_set_collapse c now k v1 v2, ?_⟩
  rw [set_set_collapse c now k v1 v2]
  exact get_set_self c now k v2 hcap

theorem C4_overwrite_witness :
    1 ≤ (DefaultCache.new 1 : DefaultCache Nat Nat).cap ∧
    ((((DefaultCache.new 1 : DefaultCache Nat Nat).set 0 7 1).set 0 7 2) =
      (DefaultCache.new 1 : DefaultCache Nat Nat).set 0 7 2 ∧
    (((DefaultCache.new 1 : DefaultCache Nat Nat).set 0 7 1).set 0 7 2).get 0 7 = some 2) :=
  ⟨by decide, C4_overwrite (DefaultCache.new 1) 0 7 1 2 (by decide)⟩

/-- C5: for every cache state satisfying the key-uniqueness representation
invariant of the wrapped hash map, every key `k` and every current time,
`has(k)` returns true exactly when `get(k)` returns some value: the two
operations agree on liveness. -/
theorem C5_has_iff_get {K V : Type} [DecidableEq K] (c : DefaultCache K V)
    (now : Nat) (k : K) (hu : uniqueKeys c.entries) :
    c.has now k = true ↔ (c.get now k).isSome = true :=
  has_eq_get_isSome c now k hu

theorem C5_has_iff_get_witness :
    uniqueKeys ((DefaultCache.new 2 : DefaultCache Nat Nat).set 0 1 10).entries ∧
    (((DefaultCache.new 2 : DefaultCache Nat Nat).set 0 1 10).has 0 1 = true ↔
      (((DefaultCache.new 2 : DefaultCache Nat Nat).set 0 1 10).get 0 1).isSome = true) :=
  ⟨by unfold uniqueKeys; decide,
    C5_has_iff_get ((DefaultCache.new 2).set 0 1 10) 0 1 (by unfold uniqueKeys; decide)⟩

/-- C6 (counterexample): an entry whose `expires_at` equals the current time
is still returned: after `set_ttl(5); set(k, v)` at time 0 the stored entry
has expires_at = 5, and at time 5 (expires_at "at or before the current
time") `get` still returns the value and `has` still returns true — expiry
fires only strictly after the current time passes `expires_at`. -/
theorem C6_counterexample :
    (((DefaultCache.new 1 : DefaultCache Nat Nat).set_ttl 5).set 0 1 99).entries =
      [⟨1, 99, 5⟩] ∧
    (((DefaultCache.new 1 : DefaultCache Nat Nat).set_ttl 5).set 0 1 99).get 5 1 =
      some 99 ∧
    (((DefaultCache.new 1 : DefaultCache Nat Nat).set_ttl 5).set 0 1 99).has 5 1 =
      true := by
  decide

/-- C6 (amended): for every cache state with the map's key-uniqueness
invariant and every stored entry for `k`: once the current time is strictly
past the entry's `expires_at`, `get(k)` returns absent and `has(k)` returns
false, independent of any physical purge; and while `now ≤ expires_at` the
stored value is still returned (never dropped before expiration, never
reported after it fires). -/
theorem C6_amended_expiry {K V : Type} [DecidableEq K] (c : DefaultCache K V)
    (now : Nat) (k : K) (e : CacheEntry K V) (hu : uniqueKeys c.entries)
    (hf : c.entries.find? (fun x => decide (x.key = k)) = some e) :
    (e.expiresAt < now → c.get now k = none ∧ c.has now k = false) ∧
    (now ≤ e.expiresAt → c.get now k = some e.value ∧ c.has now k = true) := by
  constructor
  · intro hexp
    have hdead : ¬ e.isLive now = true := by
      simp only [CacheEntry.isLive, decide_eq_true_eq]
      omega
    have hget : c.get now k = none := by
      unfold DefaultCache.get
      rw [hf, Option.some_bind, if_neg hdead]
    refine ⟨hget, ?_⟩
    have hiff := has_eq_get_isSome c now k hu
    rw [hget] at hiff
    simpa using hiff
  · intro hlive
    have hl : e.isLive now = true := by
      simp only [CacheEntry.isLive, decide_eq_true_eq]
      omega
    have hget : c.get now k = some e.value := by
      unfold DefaultCache.get
      rw [hf, Option.some_bind, if_pos hl]
    refine ⟨hget, ?_⟩
    have hiff := has_eq_get_isSome c now k hu
    rw [hget] at hiff
    simpa using hiff

theorem C6_amended_expiry_witness :
    uniqueKeys (((DefaultCache.new 2 : DefaultCache Nat Nat).set_ttl 5).set 0 1 99).entries ∧
    ((((DefaultCache.new 2 : DefaultCache Nat Nat).set_ttl 5).set 0 1 99).entries.find?
        (fun x => decide (x.key = 1)) = some ⟨1, 99, 5⟩) ∧
    (((⟨1, 99, 5⟩ : CacheEntry Nat Nat).expiresAt < 6 →
        (((DefaultCache.new 2 : DefaultCache Nat Nat).set_ttl 5).set 0 1 99).get 6 1 =
          none ∧
        (((DefaultCache.new 2 : DefaultCache Nat Nat).set_ttl 5).set 0 1 99).has 6 1 =
          false) ∧
      (6 ≤ (⟨1, 99, 5⟩ : CacheEntry Nat Nat).expiresAt →
        (((DefaultCache.new 2 : DefaultCache Nat Nat).set_ttl 5).set 0 1 99).get 6 1 =
          some (⟨1, 99, 5⟩ : CacheEntry Nat Nat).value ∧
        (((DefaultCache.new 2 : DefaultCache Nat Nat).set_ttl 5).set 0 1 99).has 6 1 =
          true)) :=
  ⟨by unfold uniqueKeys; decide, by decide,
    C6_amended_expiry _ 6 1 ⟨1, 99, 5⟩ (by unfold uniqueKeys; decide) (by decide)⟩

/-- C7: an entry's expiration is fixed at insertion as `now` plus the TTL in
effect at that moment, and `set_ttl` is pure reconfiguration: it changes only
the wrapper's `ttl` field (stored entries and capacity untouched), the TTL it
installs governs subsequent `set` calls, and a `set` before any
reconfiguration stores `now + ttl` with the old TTL. -/
theorem C7_ttl_frame {K V : Type} [DecidableEq K] (c : DefaultCache K V)
    (t now : Nat) (k : K) (v : V) (hcap : 1 ≤ c.cap) :
    (c.set_ttl t).entries = c.entries ∧
    (c.set_ttl t).cap = c.cap ∧
    (c.set_ttl t).ttl = t ∧
    ((c.set_ttl t).set now k v).entries.find? (fun e => decide (e.key = k)) =
      some ⟨k, v, now + t⟩ ∧
    (c.set now k v).entries.find? (fun e => decide (e.key = k)) =
      some ⟨k, v, now + c.ttl⟩ := by
  refine ⟨rfl, rfl, rfl, ?_, ?_⟩
  · exact find?_set_self (c.set_ttl t) now k v hcap
  · exact find?_set_self c now k v hcap

theorem C7_ttl_frame_witness :
    1 ≤ (DefaultCache.new 1 : DefaultCache Nat Nat).cap ∧
    (((DefaultCache.new 1 : DefaultCache Nat Nat).set_ttl 7).entries =
        (DefaultCache.new 1 : DefaultCache Nat Nat).entries ∧
      ((DefaultCache.new 1 : DefaultCache Nat Nat).set_ttl 7).cap =
        (DefaultCache.new 1 : DefaultCache Nat Nat).cap ∧
      ((DefaultCache.new 1 : DefaultCache Nat Nat).set_ttl 7).ttl = 7 ∧
      (((DefaultCache.new 1 : DefaultCache Nat Nat).set_ttl 7).set 0 3 5).entries.find?
        (fun e => decide (e.key = 3)) = some ⟨3, 5, 7⟩ ∧
      ((DefaultCache.new 1 : DefaultCache Nat Nat).set 0 3 5).entries.find?
        (fun e => decide (e.key = 3)) = some ⟨3, 5, 120⟩) :=
  ⟨by decide, C7_ttl_frame (DefaultCache.new 1) 7 0 3 5 (by decide)⟩

/-- C8: `set_capacity(new_cap)` immediately — within the call itself, not
lazily on later operations — brings the live entry count to at most
`new_cap`, evicting according to the eviction policy (oldest-inserted first:
the survivors are a tail of the insertion-ordered entry list), and installs
the new bound. -/
theorem C8_set_capacity_immediate {K V : Type} [DecidableEq K]
    (c : DefaultCache K V) (now n : Nat) :
    liveCount now ((c.set_capacity now n).entries) ≤ n ∧
    (c.set_capacity now n).cap = n ∧
    (∃ i, (c.set_capacity now n).entries = c.entries.drop i) :=
  ⟨liveCount_evict_le now n c.entries, rfl, evict_eq_drop now n c.entries⟩

/-- C9: the capacity invariant — the number of live (non-expired) entries
never exceeds the current capacity — holds after every operation, at the
operation's time `now` and at every later time `now'` (live counts only
shrink as time advances): `set` and `set_capacity` establish it
unconditionally (an insertion that would exceed capacity evicts within the
call), `set_ttl` preserves it, and `clear` and `new` leave no entries at
all; `get` and `has` do not change the state. -/
theorem C9_capacity_invariant {K V : Type} [DecidableEq K]
    (c : DefaultCache K V) (now now' n t : Nat) (k : K) (v : V)
    (h : now ≤ now') :
    liveCount now' ((c.set now k v).entries) ≤ (c.set now k v).cap ∧
    liveCount now' ((c.set_capacity now n).entries) ≤ (c.set_capacity now n).cap ∧
    (liveCount now c.entries ≤ c.cap →
      liveCount now' ((c.set_ttl t).entries) ≤ (c.set_ttl t).cap) ∧
    liveCount now' (c.clear.entries) ≤ c.clear.cap ∧
    liveCount now' ((DefaultCache.new n : DefaultCache K V).entries) ≤
      (DefaultCache.new n : DefaultCache K V).cap := by
  refine ⟨?_, ?_, ?_, ?_, ?_⟩
  · exact le_trans (liveCount_mono h _) (liveCount_evict_le now c.cap _)
  · exact le_trans (liveCount_mono h _) (liveCount_evict_le now n _)
  · intro hc
    exact le_trans (liveCount_mono h _) hc
  · simp [DefaultCache.clear, liveCount]
  · simp [DefaultCache.new, liveCount]

theorem C9_capacity_invariant_witness :
    (0 : Nat) ≤ 1 ∧
    (liveCount 1 (((DefaultCache.new 1 : DefaultCache Nat Nat).set 0 4 5).entries) ≤
        ((DefaultCache.new 1 : DefaultCache Nat Nat).set 0 4 5).cap ∧
      liveCount 1 (((DefaultCache.new 1 : DefaultCache Nat Nat).set_capacity 0 2).entries) ≤
        ((DefaultCache.new 1 : DefaultCache Nat Nat).set_capacity 0 2).cap ∧
      (liveCount 0 (DefaultCache.new 1 : DefaultCache Nat Nat).entries ≤
          (DefaultCache.new 1 : DefaultCache Nat Nat).cap →
        liveCount 1 (((DefaultCache.new 1 : DefaultCache Nat Nat).set_ttl 3).entries) ≤
          ((DefaultCache.new 1 : DefaultCache Nat Nat).set_ttl 3).cap) ∧
      liveCount 1 ((DefaultCache.new 1 : DefaultCache Nat Nat).clear.entries) ≤
        (DefaultCache.new 1 : DefaultCache Nat Nat).clear.cap ∧
      liveCount 1 ((DefaultCache.new 2 : DefaultCache Nat Nat).entries) ≤
        (DefaultCache.new 2 : DefaultCache Nat Nat).cap) :=
  ⟨by decide, C9_capacity_invariant (DefaultCache.new 1) 0 1 2 3 4 5 (by decide)⟩

/-- C10: `get` and `has` take the cache by shared reference and perform no
mutation whatsoever — no recency bookkeeping, no lazy purge of expired
entries — so deleting any read from a timestamped operation sequence leaves
the resulting cache state unchanged, and the eviction order is determined
solely by the write operations (insertion order), never by reads. -/
theorem C10_reads_are_pure {K V : Type} [DecidableEq K] (c : DefaultCache K V)
    (l1 l2 : List (Nat × CacheOp K V)) (t : Nat) (k : K) :
    runOps c (l1 ++ (t, CacheOp.get k) :: l2) = runOps c (l1 ++ l2) ∧
    runOps c (l1 ++ (t, CacheOp.has k) :: l2) = runOps c (l1 ++ l2) := by
  constructor <;>
  · induction l1 generalizing c with
    | nil => rfl
    | cons p rest ih =>
      obtain ⟨n, op⟩ := p
      simp only [List.cons_append, runOps]
      exact ih _
